import Mathlib

/-!
Verification of the child-sorting module (`src/sort.rs`) of the ego-tree fork.

The module sorts the children of one parent node of an arena tree.  Each public
operation (`sort`, `sort_by`, `sort_by_key`, `sort_id`, `sort_by_id`,
`sort_by_id_key`) snapshots the children as `(NodeId, value)` pairs
(`sort_handler`), stably sorts the snapshot (Rust's stable `Vec::sort_by`,
modelled by `List.mergeSort`), and then reorders the physical sibling chain
(`swap`) using only the arena splice primitive `insert_id_before`.

`sort.rs` is the only file of the repository available here; the tree arena and
its `insert_id_before` primitive are modelled from the specification (§4.3) as
operations on each parent's ordered child list.
-/

namespace EgoTree

/-- A `NodeId` is an arena identifier; identifiers are allocated in creation
order, so the creation index is modelled directly as a natural number. -/
abbrev NodeId := Nat

/-- `NodeId::to_index`: the creation index of an identifier. -/
def NodeId.to_index (id : NodeId) : Nat := id

/-- `sorted.iter().position(|&node| node == u)` — index of the first occurrence
of `u`, if any. -/
def position (u : NodeId) : List NodeId → Option Nat
  | [] => none
  | x :: xs => if x = u then some 0 else (position u xs).map (· + 1)

/-- The skip test of `swap`'s inner scan:
`sorted.iter().position(|&node| node == unsorted_id).is_some_and(|uindex| uindex < index)`. -/
def placedBefore (sorted : List NodeId) (index : Nat) (u : NodeId) : Bool :=
  match position u sorted with
  | some uindex => uindex < index
  | none => false

/-- Modelled from the spec (§4.3): the reinsertion half of the splice
primitive — insert `node` immediately preceding the (first) occurrence of
`anchor` in a sibling chain. -/
def insertBefore (node anchor : NodeId) : List NodeId → List NodeId
  | [] => [node]
  | x :: xs => if x = anchor then node :: x :: xs else x :: insertBefore node anchor xs

/-- Modelled from the spec (§4.3): `move(node, beforeSibling)` — detach `node`
from its current position in the sibling chain, then reinsert it immediately
preceding `anchor`. -/
def moveBefore (chain : List NodeId) (node anchor : NodeId) : List NodeId :=
  insertBefore node anchor (chain.erase node)

/-- The mutable state of `swap`'s loop: the carry slot (`cache`), the
unconsumed suffix of the `unsorted` iterator, the current sibling chain, and
the splice calls performed so far, recorded as `(moved node, anchor)` pairs —
`(sorted_id, unsorted_id)` for the closure call `swap(sorted_id, unsorted_id)`,
which runs `get_unchecked_mut(unsorted_id).insert_id_before(sorted_id)`. -/
structure SwapState where
  cache : Option NodeId
  rest : List NodeId
  chain : List NodeId
  trace : List (NodeId × NodeId)
  deriving DecidableEq, Repr

/-- The inner `for unsorted_id in unsorted.by_ref()` loop of `swap` (the
`None => ...` match arm): skip identifiers already placed at a target position
before `index`; at the first remaining identifier different from `id`, splice
`id` before it, record it as the carry and stop; when the identifier equals
`id` the loop just keeps going. -/
def scan (sorted : List NodeId) (index : Nat) (id : NodeId) :
    List NodeId → List NodeId → SwapState
  | [], chain => ⟨none, [], chain, []⟩
  | u :: rest, chain =>
    if placedBefore sorted index u then scan sorted index id rest chain
    else if u ≠ id then ⟨some u, rest, moveBefore chain id u, [(id, u)]⟩
    else scan sorted index id rest chain

/-- One iteration of `swap`'s `for (index, &id) in sorted.iter().enumerate()`
loop: the three-way match on the carry slot. -/
def swapStep (sorted : List NodeId) (index : Nat) (id : NodeId)
    (cache : Option NodeId) (rest chain : List NodeId) : SwapState :=
  match cache with
  | some c =>
    if c ≠ id then ⟨some c, rest, moveBefore chain id c, [(id, c)]⟩
    else ⟨none, rest, chain, []⟩
  | none => scan sorted index id rest chain

/-- The outer loop of `swap`, iterating `swapStep` over the positions of
`sorted`; returns the final chain together with the full splice trace. -/
def swapGo (sorted : List NodeId) :
    Nat → List NodeId → Option NodeId → List NodeId → List NodeId →
    List NodeId × List (NodeId × NodeId)
  | _, [], _, _, chain => (chain, [])
  | index, id :: srest, cache, rest, chain =>
    let r := swapStep sorted index id cache rest chain
    let out := swapGo sorted (index + 1) srest r.cache r.rest r.chain
    (out.1, r.trace ++ out.2)

/-- `NodeMut::swap(unsorted, sorted)` acting on a sibling chain: the loop
starts with an empty carry and the whole `unsorted` vector to consume. -/
def swapChain (unsorted sorted chain : List NodeId) :
    List NodeId × List (NodeId × NodeId) :=
  swapGo sorted 0 sorted none unsorted chain

/-- `NodeMut::sort_handler(f)`: snapshot the children as `(NodeId, value)`
pairs, return their ids in original order together with the ids after the
sorting closure `f` has been applied to the pairs. -/
def sort_handler {T : Type _} (f : List (NodeId × T) → List (NodeId × T))
    (children : List (NodeId × T)) : List NodeId × List NodeId :=
  (children.map Prod.fst, (f children).map Prod.fst)

/-- Modelled from the spec (§2, §3): the arena store, with each node's value,
parent link, and ordered list of immediate children (the sibling chain). -/
@[ext]
structure Arena (T : Type _) where
  value : NodeId → T
  parent : NodeId → Option NodeId
  children : NodeId → List NodeId

variable {T : Type _}

/-- Modelled from the spec (§4.3): `NodeMut::insert_id_before` — the node
`movedId` is detached and reinserted immediately preceding the node `selfId`
inside the sibling chain of `selfId`'s parent. -/
def Arena.insert_id_before (a : Arena T) (selfId movedId : NodeId) : Arena T :=
  match a.parent selfId with
  | none => a
  | some p =>
    { a with
      children := fun q =>
        if q = p then moveBefore (a.children p) movedId selfId else a.children q }

/-- Apply a recorded trace of splice calls `(moved, anchor)` to the arena, in
order; this is exactly the sequence of `insert_id_before` calls `swap`
performs, since its control flow reads only the `unsorted`/`sorted` vectors
and never the tree. -/
def Arena.applyMoves : Arena T → List (NodeId × NodeId) → Arena T
  | a, [] => a
  | a, (m, anchor) :: tr => (a.insert_id_before anchor m).applyMoves tr

/-- The children of `p` paired with their values, as read by `sort_handler`. -/
def Arena.childPairs (a : Arena T) (p : NodeId) : List (NodeId × T) :=
  (a.children p).map (fun id => (id, a.value id))

/-- `NodeMut::has_children`. -/
def Arena.has_children (a : Arena T) (p : NodeId) : Bool :=
  a.children p ≠ []

/-- The splice calls a sort operation with planner `f` performs on parent `p`:
none when `p` has no children, otherwise the trace of
`swap(unsorted, sorted)` run against the current sibling chain. -/
def Arena.sortWithMoves (a : Arena T) (p : NodeId)
    (f : List (NodeId × T) → List (NodeId × T)) : List (NodeId × NodeId) :=
  if a.has_children p then
    let us := sort_handler f (a.childPairs p)
    (swapChain us.1 us.2 (a.children p)).2
  else []

/-- The common body of all six sort operations: when `p` has children, snapshot
and plan via `sort_handler f`, then apply the resulting splice calls. -/
def Arena.sortWith (a : Arena T) (p : NodeId)
    (f : List (NodeId × T) → List (NodeId × T)) : Arena T :=
  a.applyMoves (a.sortWithMoves p f)

/-- Rust's stable `Vec::sort_by(compare)`, modelled as stable merge sort with
`le a b := compare a b ≠ Ordering.gt`. -/
def stableSortBy {α : Type _} (compare : α → α → Ordering) (l : List α) : List α :=
  l.mergeSort (fun x y => compare x y != Ordering.gt)

/-- Rust's stable `Vec::sort_by_key(f)`, modelled as stable merge sort on the
extracted keys. -/
def stableSortByKey {α K : Type _} [LinearOrder K] (f : α → K) (l : List α) : List α :=
  l.mergeSort (fun x y => decide (f x ≤ f y))

/-- `NodeMut::sort_by(compare)`. -/
def Arena.sort_by (a : Arena T) (p : NodeId) (compare : T → T → Ordering) : Arena T :=
  a.sortWith p (stableSortBy (fun x y => compare x.2 y.2))

/-- `NodeMut::sort()` — `sort_by` with `Ord::cmp`. -/
def Arena.sort [LinearOrder T] (a : Arena T) (p : NodeId) : Arena T :=
  a.sort_by p (fun x y => compare x y)

/-- `NodeMut::sort_by_key(f)`. -/
def Arena.sort_by_key {K : Type _} [LinearOrder K] (a : Arena T) (p : NodeId)
    (f : T → K) : Arena T :=
  a.sortWith p (stableSortByKey (fun pr => f pr.2))

/-- `NodeMut::sort_by_id(compare)` — compare the creation indices. -/
def Arena.sort_by_id (a : Arena T) (p : NodeId)
    (compare : Nat → Nat → Ordering) : Arena T :=
  a.sortWith p (stableSortBy (fun x y => compare x.1.to_index y.1.to_index))

/-- `NodeMut::sort_id()` — `sort_by_id` with `Ord::cmp`, restoring creation
order. -/
def Arena.sort_id (a : Arena T) (p : NodeId) : Arena T :=
  a.sort_by_id p (fun x y => compare x y)

/-- `NodeMut::sort_by_id_key(f)` — sort by a key of creation index and value. -/
def Arena.sort_by_id_key {K : Type _} [LinearOrder K] (a : Arena T) (p : NodeId)
    (f : Nat → T → K) : Arena T :=
  a.sortWith p (stableSortByKey (fun pr => f pr.1.to_index pr.2))

/-- Well-formedness of the arena at parent `p`: the children are distinct and
each child's parent link points back to `p`. -/
def Arena.wf (a : Arena T) (p : NodeId) : Prop :=
  (a.children p).Nodup ∧ ∀ u ∈ a.children p, a.parent u = some p

/-- `NodeMut::swap(unsorted, sorted)` at the arena level: perform the splice
calls of the loop against the current sibling chain of `p`. -/
def Arena.swap (a : Arena T) (p : NodeId) (unsorted sorted : List NodeId) : Arena T :=
  a.applyMoves (swapChain unsorted sorted (a.children p)).2

/-- The chain resulting from applying a splice trace in order (ghost state of
the `swap` loop). -/
def chainApply (chain : List NodeId) (tr : List (NodeId × NodeId)) : List NodeId :=
  tr.foldl (fun c pr => moveBefore c pr.1 pr.2) chain

/-- The sublist of `rest` of identifiers not occurring in `A` (proof-side
abbreviation for the unconsumed, not-yet-placed identifiers). -/
def notIn (A rest : List NodeId) : List NodeId :=
  rest.filter (fun u => !decide (u ∈ A))

/-- The frame condition of a sort call at parent `p`: all values, all parent
links and all other nodes' child lists are untouched; only `p`'s sibling
chain is permuted. -/
def framePreserved (a a' : Arena T) (p : NodeId) : Prop :=
  a'.value = a.value
  ∧ a'.parent = a.parent
  ∧ (∀ q, q ≠ p → a'.children q = a.children q)
  ∧ (a'.children p).Perm (a.children p)

/-- A concrete three-child arena (values 30, 20, 10 in creation order) used to
instantiate the hypotheses of the general theorems. -/
def demoArena : Arena Nat where
  value := fun i => if i = 1 then 30 else if i = 2 then 20 else if i = 3 then 10 else 0
  parent := fun i => if i = 0 then none else if i ≤ 3 then some 0 else none
  children := fun q => if q = 0 then [1, 2, 3] else []

/-- A concrete two-child arena whose children are already in ascending value
order. -/
def demoSorted : Arena Nat where
  value := fun i => 10 * i
  parent := fun i => if i = 1 ∨ i = 2 then some 0 else none
  children := fun q => if q = 0 then [1, 2] else []

end EgoTree

namespace EgoTree

/-! ### Helper lemmas: position, placedBefore, insertBefore, moveBefore -/

/-- The skip test succeeds exactly on identifiers occurring among the first
`i` entries of `sorted`. -/
theorem placedBefore_eq (u : NodeId) :
    ∀ (S : List NodeId) (i : Nat), placedBefore S i u = decide (u ∈ S.take i) := by
  intro S
  induction S with
  | nil => intro i; simp [placedBefore, position]
  | cons a S ih =>
    intro i
    by_cases hau : a = u
    · subst hau
      cases i with
      | zero => simp [placedBefore, position]
      | succ i => simp [placedBefore, position]
    · cases i with
      | zero =>
        simp only [placedBefore, position, if_neg hau, List.take_zero,
          List.not_mem_nil, decide_False]
        cases h : position u S <;> simp
      | succ i =>
        have hih := ih i
        simp only [placedBefore, position, if_neg hau, List.take_succ_cons,
          List.mem_cons] at hih ⊢
        cases h : position u S with
        | none => simp [h] at hih ⊢; simp [hih, Ne.symm hau]
        | some j => simp [h] at hih ⊢; simp [hih, Ne.symm hau, Nat.succ_lt_succ_iff]

/-- With the sorted vector decomposed as `A ++ tail` and the loop at position
`A.length`, the skip test is membership in `A`. -/
theorem placedBefore_append (A tail : List NodeId) (u : NodeId) :
    placedBefore (A ++ tail) A.length u = decide (u ∈ A) := by
  rw [placedBefore_eq, List.take_left]

theorem insertBefore_append (node anchor : NodeId) (X Y : List NodeId)
    (hX : anchor ∉ X) :
    insertBefore node anchor (X ++ anchor :: Y) = X ++ node :: anchor :: Y := by
  induction X with
  | nil => simp [insertBefore]
  | cons x X ih =>
    have hxa : x ≠ anchor := fun h => hX (h ▸ List.mem_cons_self x X)
    simp only [List.cons_append, insertBefore, if_neg hxa, List.append_eq]
    rw [ih (fun h => hX (List.mem_cons_of_mem x h))]

theorem insertBefore_perm (node anchor : NodeId) (l : List NodeId) :
    (insertBefore node anchor l).Perm (node :: l) := by
  induction l with
  | nil => simp [insertBefore]
  | cons x xs ih =>
    by_cases hx : x = anchor
    · simp [insertBefore, hx]
    · simp only [insertBefore, if_neg hx]
      exact (ih.cons x).trans (List.Perm.swap node x xs)

theorem moveBefore_perm (chain : List NodeId) (node anchor : NodeId)
    (h : node ∈ chain) : (moveBefore chain node anchor).Perm chain := by
  unfold moveBefore
  exact (insertBefore_perm node anchor (chain.erase node)).trans
    (List.perm_cons_erase h).symm

/-- A splice that reinserts a node exactly where it stood is a physical
no-op. -/
theorem moveBefore_adjacent (X Y : List NodeId) (s u : NodeId)
    (hsX : s ∉ X) (huX : u ∉ X) :
    moveBefore (X ++ s :: u :: Y) s u = X ++ s :: u :: Y := by
  unfold moveBefore
  rw [List.erase_append_right _ hsX, List.erase_cons_head]
  exact insertBefore_append s u X Y huX

/-- Erasing an element from a filtered duplicate-free list is filtering with
the stronger predicate. -/
theorem filter_erase (s : NodeId) (p : NodeId → Bool) :
    ∀ (l : List NodeId), l.Nodup →
      (l.filter p).erase s = l.filter (fun u => p u && !(u == s)) := by
  intro l
  induction l with
  | nil => simp
  | cons x l ih =>
    intro hnd
    have hx : x ∉ l := (List.nodup_cons.mp hnd).1
    have hl : l.Nodup := (List.nodup_cons.mp hnd).2
    by_cases hpx : p x
    · by_cases hxs : x = s
      · subst hxs
        simp only [List.filter_cons, hpx, if_pos, List.erase_cons_head,
          beq_self_eq_true, Bool.not_true, Bool.and_false, if_neg,
          Bool.false_eq_true, not_false_eq_true]
        exact List.filter_congr (fun u hu => by
          have hus : ¬ (u == x) = true := by
            simp only [beq_iff_eq]
            exact fun h => hx (h ▸ hu)
          simp [hus, hpx])
      · have hbeq : ¬ (x == s) = true := by simp [hxs]
        simp only [List.filter_cons, hpx, if_pos]
        rw [List.erase_cons_tail hbeq, ih hl]
        simp [hpx, hxs]
    · simp only [List.filter_cons, hpx]
      simp only [Bool.false_and, if_neg, Bool.false_eq_true, not_false_eq_true]
      exact ih hl

theorem nodup_middle_not_mem {A tail : List NodeId} {s : NodeId}
    (h : (A ++ s :: tail).Nodup) : s ∉ A :=
  fun hmem => (List.nodup_append.mp h).2.2 hmem (List.mem_cons_self s tail)

theorem notIn_cons_mem {A rest : List NodeId} {u : NodeId} (h : u ∈ A) :
    notIn A (u :: rest) = notIn A rest := by
  simp [notIn, List.filter_cons, h]

theorem notIn_cons_not_mem {A rest : List NodeId} {u : NodeId} (h : u ∉ A) :
    notIn A (u :: rest) = u :: notIn A rest := by
  simp [notIn, List.filter_cons, h]

/-- Once `s` is no longer in the unconsumed suffix, excluding it from the
not-yet-placed filter changes nothing. -/
theorem notIn_snoc_of_not_mem {A rest : List NodeId} {s : NodeId} (h : s ∉ rest) :
    notIn (A ++ [s]) rest = notIn A rest := by
  unfold notIn
  exact List.filter_congr (fun u hu => by
    have hus : u ≠ s := fun heq => h (heq ▸ hu)
    simp [List.mem_append, hus])

/-- Consuming `s` out of the not-yet-placed filter: erase it and extend the
placed prefix. -/
theorem notIn_snoc_erase {A rest : List NodeId} (s : NodeId) (h : rest.Nodup) :
    (notIn A rest).erase s = notIn (A ++ [s]) rest := by
  unfold notIn
  rw [filter_erase s _ rest h]
  exact List.filter_congr (fun u _ => by
    by_cases hus : u = s
    · simp [hus]
    · simp [List.mem_append, hus])

/-- Membership subset transfer through `notIn`. -/
theorem mem_of_mem_notIn {A rest : List NodeId} {u : NodeId}
    (h : u ∈ notIn A rest) : u ∈ rest := List.mem_of_mem_filter h

theorem mem_notIn_of_mem {A rest : List NodeId} {u : NodeId}
    (hu : u ∈ rest) (hA : u ∉ A) : u ∈ notIn A rest := by
  unfold notIn
  exact List.mem_filter.mpr ⟨hu, by simp [hA]⟩

/-! ### The scan invariant (inner loop of `swap`) -/

/-- Phase 2 of the inner scan: the desired identifier `s` has already been
consumed from the iterator and sits immediately after the placed prefix `A`
in the chain.  The scan either exhausts the iterator (leaving the chain as
`A ++ [s]`) or finds the next not-yet-placed identifier `u`, performs a
physically no-op splice of `s` before `u`, and carries `u`. -/
theorem scan_inv2 (A tail : List NodeId) (s : NodeId)
    (hS : (A ++ s :: tail).Nodup) :
    ∀ (rest chain : List NodeId),
      chain = A ++ s :: notIn A rest →
      chain.Perm (A ++ s :: tail) →
      rest.Nodup →
      (∀ u ∈ rest, u ∈ A ++ s :: tail) →
      s ∉ rest →
      ((scan (A ++ s :: tail) A.length s rest chain).chain
          = (A ++ [s]) ++ (scan (A ++ s :: tail) A.length s rest chain).cache.toList
              ++ notIn (A ++ [s]) (scan (A ++ s :: tail) A.length s rest chain).rest)
      ∧ (scan (A ++ s :: tail) A.length s rest chain).chain.Perm (A ++ s :: tail)
      ∧ (scan (A ++ s :: tail) A.length s rest chain).rest.Nodup
      ∧ (∀ u ∈ (scan (A ++ s :: tail) A.length s rest chain).rest, u ∈ A ++ s :: tail)
      ∧ (∀ c, (scan (A ++ s :: tail) A.length s rest chain).cache = some c →
          c ∉ (scan (A ++ s :: tail) A.length s rest chain).rest) := by
  intro rest
  induction rest with
  | nil =>
    intro chain h1 h2 _ _ _
    simp only [scan]
    refine ⟨?_, h2, List.nodup_nil, by simp, by simp⟩
    simp [h1, notIn]
  | cons u rest ih =>
    intro chain h1 h2 h3 h4 h5
    have hrest : rest.Nodup := (List.nodup_cons.mp h3).2
    have hsrest : s ∉ rest := fun h => h5 (List.mem_cons_of_mem u h)
    have hsu : s ≠ u := fun h => h5 (h ▸ List.mem_cons_self u rest)
    simp only [scan, placedBefore_append A (s :: tail) u]
    by_cases huA : u ∈ A
    · rw [if_pos (by simp [huA])]
      exact ih chain (by rw [h1, notIn_cons_mem huA]) h2 hrest
        (fun v hv => h4 v (List.mem_cons_of_mem u hv)) hsrest
    · rw [if_neg (by simp [huA]), if_pos (Ne.symm hsu)]
      have hchain : chain = A ++ s :: u :: notIn A rest := by
        rw [h1, notIn_cons_not_mem huA]
      have hchainnd : chain.Nodup := h2.symm.nodup hS
      have hsA : s ∉ A := nodup_middle_not_mem hS
      have huA' : u ∉ A := huA
      -- the splice is a physical no-op: s is already immediately before u
      have hmv : moveBefore chain s u = chain := by
        rw [hchain]
        exact moveBefore_adjacent A (notIn A rest) s u hsA huA'
      refine ⟨?_, ?_, hrest, fun v hv => h4 v (List.mem_cons_of_mem u hv), ?_⟩
      · show moveBefore chain s u = _
        rw [hmv, hchain, notIn_snoc_of_not_mem hsrest]
        simp
      · show (moveBefore chain s u).Perm _
        rw [hmv]; exact h2
      · intro c hc
        have : u = c := Option.some.inj hc
        subst this
        exact (List.nodup_cons.mp h3).1

/-- Phase 1 of the inner scan: the desired identifier `s` is still ahead in
the unconsumed suffix.  Skipped identifiers are dropped; at the first
remaining identifier `u ≠ s` the loop splices `s` before `u` and carries `u`;
at `u = s` it falls through to phase 2. -/
theorem scan_inv1 (A tail : List NodeId) (s : NodeId)
    (hS : (A ++ s :: tail).Nodup) :
    ∀ (rest chain : List NodeId),
      chain = A ++ notIn A rest →
      chain.Perm (A ++ s :: tail) →
      rest.Nodup →
      (∀ u ∈ rest, u ∈ A ++ s :: tail) →
      ((scan (A ++ s :: tail) A.length s rest chain).chain
          = (A ++ [s]) ++ (scan (A ++ s :: tail) A.length s rest chain).cache.toList
              ++ notIn (A ++ [s]) (scan (A ++ s :: tail) A.length s rest chain).rest)
      ∧ (scan (A ++ s :: tail) A.length s rest chain).chain.Perm (A ++ s :: tail)
      ∧ (scan (A ++ s :: tail) A.length s rest chain).rest.Nodup
      ∧ (∀ u ∈ (scan (A ++ s :: tail) A.length s rest chain).rest, u ∈ A ++ s :: tail)
      ∧ (∀ c, (scan (A ++ s :: tail) A.length s rest chain).cache = some c →
          c ∉ (scan (A ++ s :: tail) A.length s rest chain).rest) := by
  intro rest
  induction rest with
  | nil =>
    intro chain h1 h2 _ _
    exfalso
    have : chain = A := by simpa [notIn] using h1
    have hlen := h2.length_eq
    rw [this] at hlen
    simp at hlen
  | cons u rest ih =>
    intro chain h1 h2 h3 h4
    have hrest : rest.Nodup := (List.nodup_cons.mp h3).2
    have hsA : s ∉ A := nodup_middle_not_mem hS
    simp only [scan, placedBefore_append A (s :: tail) u]
    by_cases huA : u ∈ A
    · rw [if_pos (by simp [huA])]
      exact ih chain (by rw [h1, notIn_cons_mem huA]) h2 hrest
        (fun v hv => h4 v (List.mem_cons_of_mem u hv))
    · by_cases hus : u = s
      · subst hus
        rw [if_neg (by simp [huA]), if_neg (by simp)]
        exact scan_inv2 A tail u hS rest chain
          (by rw [h1, notIn_cons_not_mem huA]) h2 hrest
          (fun v hv => h4 v (List.mem_cons_of_mem u hv))
          (List.nodup_cons.mp h3).1
      · rw [if_neg (by simp [huA]), if_pos (Ne.symm (fun h => hus h.symm))]
        have hchain : chain = A ++ u :: notIn A rest := by
          rw [h1, notIn_cons_not_mem huA]
        have hchainnd : chain.Nodup := h2.symm.nodup hS
        have hsmem : s ∈ chain :=
          h2.mem_iff.mpr (List.mem_append_right A (List.mem_cons_self s tail))
        have huA' : u ∉ A := by
          rw [hchain] at hchainnd
          exact fun hmem => (List.nodup_append.mp hchainnd).2.2 hmem
            (List.mem_cons_self u _)
        have hsrest : s ∈ notIn A rest := by
          rcases List.mem_append.mp (hchain ▸ hsmem) with hL | hR
          · exact absurd hL hsA
          · rcases List.mem_cons.mp hR with heq | htl
            · exact absurd heq (fun h => hus h.symm)
            · exact htl
        have hmv : moveBefore chain s u
            = A ++ s :: u :: (notIn A rest).erase s := by
          unfold moveBefore
          rw [hchain, List.erase_append_right _ hsA,
            List.erase_cons_tail (by simp [hus]), insertBefore_append s u A _ huA']
        refine ⟨?_, ?_, hrest, fun v hv => h4 v (List.mem_cons_of_mem u hv), ?_⟩
        · show moveBefore chain s u = _
          rw [hmv, notIn_snoc_erase s hrest]
          simp
        · show (moveBefore chain s u).Perm _
          exact (moveBefore_perm chain s u hsmem).trans h2
        · intro c hc
          have : u = c := Option.some.inj hc
          subst this
          exact (List.nodup_cons.mp h3).1

/-! ### The outer loop invariant of `swap` -/

/-- One outer iteration: processing target position `A.length` with desired
identifier `s` extends the correctly-placed prefix from `A` to `A ++ [s]`. -/
theorem swapStep_inv (A tail : List NodeId) (s : NodeId)
    (hS : (A ++ s :: tail).Nodup)
    (cache : Option NodeId) (rest chain : List NodeId)
    (h1 : chain = A ++ cache.toList ++ notIn A rest)
    (h2 : chain.Perm (A ++ s :: tail))
    (h3 : rest.Nodup)
    (h4 : ∀ u ∈ rest, u ∈ A ++ s :: tail)
    (h5 : ∀ c, cache = some c → c ∉ rest) :
    ((swapStep (A ++ s :: tail) A.length s cache rest chain).chain
        = (A ++ [s]) ++ (swapStep (A ++ s :: tail) A.length s cache rest chain).cache.toList
            ++ notIn (A ++ [s]) (swapStep (A ++ s :: tail) A.length s cache rest chain).rest)
    ∧ (swapStep (A ++ s :: tail) A.length s cache rest chain).chain.Perm (A ++ s :: tail)
    ∧ (swapStep (A ++ s :: tail) A.length s cache rest chain).rest.Nodup
    ∧ (∀ u ∈ (swapStep (A ++ s :: tail) A.length s cache rest chain).rest, u ∈ A ++ s :: tail)
    ∧ (∀ c, (swapStep (A ++ s :: tail) A.length s cache rest chain).cache = some c →
        c ∉ (swapStep (A ++ s :: tail) A.length s cache rest chain).rest) := by
  match cache with
  | none =>
    simp only [swapStep]
    exact scan_inv1 A tail s hS rest chain (by simpa using h1) h2 h3 h4
  | some c =>
    by_cases hcs : c = s
    · subst hcs
      simp only [swapStep, if_neg (by simp : ¬ c ≠ c)]
      have hcrest : c ∉ rest := h5 c rfl
      refine ⟨?_, h2, h3, h4, by simp⟩
      rw [h1, notIn_snoc_of_not_mem hcrest]
      simp
    · simp only [swapStep, if_pos hcs]
      have hchain : chain = A ++ c :: notIn A rest := by simpa using h1
      have hchainnd : chain.Nodup := h2.symm.nodup hS
      have hsA : s ∉ A := nodup_middle_not_mem hS
      have hsmem : s ∈ chain :=
        h2.mem_iff.mpr (List.mem_append_right A (List.mem_cons_self s tail))
      have hcA : c ∉ A := by
        rw [hchain] at hchainnd
        exact fun hmem => (List.nodup_append.mp hchainnd).2.2 hmem
          (List.mem_cons_self c _)
      have hsnotc : s ∈ notIn A rest := by
        rcases List.mem_append.mp (hchain ▸ hsmem) with hL | hR
        · exact absurd hL hsA
        · rcases List.mem_cons.mp hR with heq | htl
          · exact absurd heq (fun h => hcs h.symm)
          · exact htl
      have hmv : moveBefore chain s c
          = A ++ s :: c :: (notIn A rest).erase s := by
        unfold moveBefore
        rw [hchain, List.erase_append_right _ hsA,
          List.erase_cons_tail (by simp [hcs]), insertBefore_append s c A _ hcA]
      refine ⟨?_, ?_, h3, h4, ?_⟩
      · show moveBefore chain s c = _
        rw [hmv, notIn_snoc_erase s h3]
        simp
      · show (moveBefore chain s c).Perm _
        exact (moveBefore_perm chain s c hsmem).trans h2
      · intro c' hc'
        have : c = c' := Option.some.inj hc'
        subst this
        exact h5 c rfl

/-- The outer loop of `swap` realizes the target order: with the invariant
holding at placed prefix `A` and remaining targets `srest`, the final chain
is the full target `A ++ srest`. -/
theorem swapGo_inv :
    ∀ (srest A : List NodeId) (cache : Option NodeId) (rest chain : List NodeId),
      (A ++ srest).Nodup →
      chain = A ++ cache.toList ++ notIn A rest →
      chain.Perm (A ++ srest) →
      rest.Nodup →
      (∀ u ∈ rest, u ∈ A ++ srest) →
      (∀ c, cache = some c → c ∉ rest) →
      (swapGo (A ++ srest) A.length srest cache rest chain).1 = A ++ srest := by
  intro srest
  induction srest with
  | nil =>
    intro A cache rest chain _ h1 h2 _ _ _
    simp only [swapGo, List.append_nil] at h2 ⊢
    have hlen := h2.length_eq
    rw [h1] at hlen
    simp only [List.length_append] at hlen
    have hc0 : cache.toList.length = 0 := by omega
    have hn0 : (notIn A rest).length = 0 := by omega
    rw [h1, List.length_eq_zero.mp hc0, List.length_eq_zero.mp hn0]
    simp
  | cons s srest ih =>
    intro A cache rest chain hS h1 h2 h3 h4 h5
    simp only [swapGo]
    have hstep := swapStep_inv A srest s hS cache rest chain h1 h2 h3 h4 h5
    obtain ⟨k1, k2, k3, k4, k5⟩ := hstep
    have hres := ih (A ++ [s])
      (swapStep (A ++ s :: srest) A.length s cache rest chain).cache
      (swapStep (A ++ s :: srest) A.length s cache rest chain).rest
      (swapStep (A ++ s :: srest) A.length s cache rest chain).chain
      (by simpa using hS) k1 (by simpa using k2) k3 (by simpa using k4) k5
    simpa using hres

theorem notIn_nil_left (rest : List NodeId) : notIn [] rest = rest := by
  unfold notIn
  exact List.filter_eq_self.mpr (fun a _ => by simp)

theorem chainApply_append (c : List NodeId) (t1 t2 : List (NodeId × NodeId)) :
    chainApply c (t1 ++ t2) = chainApply (chainApply c t1) t2 := by
  unfold chainApply
  rw [List.foldl_append]

/-- Correctness of the permutation applier at the chain level: run against the
current chain (which `sort_handler` returns as `unsorted`), `swap` rewrites
the chain into exactly the target order. -/
theorem swapChain_eq (O S : List NodeId) (hO : O.Nodup) (hperm : S.Perm O) :
    (swapChain O S O).1 = S := by
  have h := swapGo_inv S [] none O O
    (by simpa using hperm.symm.nodup hO)
    (by simpa using (notIn_nil_left O).symm)
    (by simpa using hperm.symm)
    hO
    (fun u hu => by simpa using hperm.mem_iff.mpr hu)
    (by simp)
  simpa [swapChain] using h

/-! ### Trace bookkeeping: the splice calls recorded by the loop -/

theorem scan_facts (S : List NodeId) (i : Nat) (id : NodeId) :
    ∀ (rest chain : List NodeId),
      (∀ pr ∈ (scan S i id rest chain).trace, pr.1 = id ∧ pr.2 ∈ rest)
      ∧ (∀ c, (scan S i id rest chain).cache = some c → c ∈ rest)
      ∧ (∀ u ∈ (scan S i id rest chain).rest, u ∈ rest)
      ∧ (scan S i id rest chain).chain = chainApply chain (scan S i id rest chain).trace := by
  intro rest
  induction rest with
  | nil =>
    intro chain
    simp [scan, chainApply]
  | cons u rest ih =>
    intro chain
    simp only [scan]
    by_cases hp : placedBefore S i u
    · rw [if_pos hp]
      obtain ⟨j1, j2, j3, j4⟩ := ih chain
      exact ⟨fun pr hpr => ⟨(j1 pr hpr).1, List.mem_cons_of_mem u (j1 pr hpr).2⟩,
        fun c hc => List.mem_cons_of_mem u (j2 c hc),
        fun v hv => List.mem_cons_of_mem u (j3 v hv), j4⟩
    · rw [if_neg hp]
      by_cases hu : u ≠ id
      · rw [if_pos hu]
        refine ⟨?_, ?_, ?_, ?_⟩
        · intro pr hpr
          have : pr = (id, u) := by simpa using hpr
          subst this
          exact ⟨rfl, List.mem_cons_self u rest⟩
        · intro c hc
          have huc : u = c := Option.some.inj hc
          exact List.mem_cons.mpr (Or.inl huc.symm)
        · intro v hv
          exact List.mem_cons_of_mem u hv
        · simp [chainApply]
      · rw [if_neg hu]
        obtain ⟨j1, j2, j3, j4⟩ := ih chain
        exact ⟨fun pr hpr => ⟨(j1 pr hpr).1, List.mem_cons_of_mem u (j1 pr hpr).2⟩,
          fun c hc => List.mem_cons_of_mem u (j2 c hc),
          fun v hv => List.mem_cons_of_mem u (j3 v hv), j4⟩

theorem swapStep_facts (S : List NodeId) (i : Nat) (id : NodeId)
    (cache : Option NodeId) (rest chain : List NodeId) :
    (∀ pr ∈ (swapStep S i id cache rest chain).trace,
      pr.2 ∈ rest ∨ cache = some pr.2)
    ∧ (∀ c, (swapStep S i id cache rest chain).cache = some c →
        c ∈ rest ∨ cache = some c)
    ∧ (∀ u ∈ (swapStep S i id cache rest chain).rest, u ∈ rest)
    ∧ (swapStep S i id cache rest chain).chain
        = chainApply chain (swapStep S i id cache rest chain).trace := by
  match cache with
  | none =>
    obtain ⟨j1, j2, j3, j4⟩ := scan_facts S i id rest chain
    exact ⟨fun pr hpr => Or.inl (j1 pr hpr).2, fun c hc => Or.inl (j2 c hc), j3, j4⟩
  | some c =>
    by_cases hcs : c ≠ id
    · simp only [swapStep, if_pos hcs]
      refine ⟨?_, ?_, fun u hu => hu, by simp [chainApply]⟩
      · intro pr hpr
        have : pr = (id, c) := by simpa using hpr
        subst this
        exact Or.inr rfl
      · intro c' hc'
        have : c = c' := Option.some.inj hc'
        subst this
        exact Or.inr rfl
    · simp only [swapStep, if_neg hcs]
      exact ⟨by simp, by simp, fun u hu => hu, by simp [chainApply]⟩

theorem swapGo_facts (S : List NodeId) :
    ∀ (srest : List NodeId) (i : Nat) (cache : Option NodeId)
      (rest chain : List NodeId),
      (∀ pr ∈ (swapGo S i srest cache rest chain).2,
        pr.2 ∈ rest ∨ cache = some pr.2)
      ∧ (swapGo S i srest cache rest chain).1
          = chainApply chain (swapGo S i srest cache rest chain).2 := by
  intro srest
  induction srest with
  | nil =>
    intro i cache rest chain
    simp [swapGo, chainApply]
  | cons id srest ih =>
    intro i cache rest chain
    obtain ⟨s1, s2, s3, s4⟩ := swapStep_facts S i id cache rest chain
    obtain ⟨g1, g2⟩ := ih (i + 1)
      (swapStep S i id cache rest chain).cache
      (swapStep S i id cache rest chain).rest
      (swapStep S i id cache rest chain).chain
    constructor
    · intro pr hpr
      simp only [swapGo, List.mem_append] at hpr
      rcases hpr with hl | hr
      · exact s1 pr hl
      · rcases g1 pr hr with hin | hc
        · exact Or.inl (s3 pr.2 hin)
        · rcases s2 pr.2 hc with hin | hc'
          · exact Or.inl hin
          · exact Or.inr hc'
    · show (swapGo S i (id :: srest) cache rest chain).1 = _
      simp only [swapGo]
      rw [chainApply_append, ← s4, ← g2]

/-! ### Arena-level lemmas -/

theorem insert_id_before_spec (a : Arena T) (anchor m p : NodeId)
    (hp : a.parent anchor = some p) :
    (a.insert_id_before anchor m).value = a.value
    ∧ (a.insert_id_before anchor m).parent = a.parent
    ∧ (∀ q, q ≠ p → (a.insert_id_before anchor m).children q = a.children q)
    ∧ (a.insert_id_before anchor m).children p = moveBefore (a.children p) m anchor := by
  unfold Arena.insert_id_before
  rw [hp]
  exact ⟨rfl, rfl, fun q hq => by simp [hq], by simp⟩

theorem applyMoves_spec (p : NodeId) :
    ∀ (tr : List (NodeId × NodeId)) (a : Arena T),
      (∀ pr ∈ tr, a.parent pr.2 = some p) →
      (a.applyMoves tr).value = a.value
      ∧ (a.applyMoves tr).parent = a.parent
      ∧ (∀ q, q ≠ p → (a.applyMoves tr).children q = a.children q)
      ∧ (a.applyMoves tr).children p = chainApply (a.children p) tr := by
  intro tr
  induction tr with
  | nil => intro a _; exact ⟨rfl, rfl, fun q _ => rfl, rfl⟩
  | cons pr tr ih =>
    intro a hpar
    obtain ⟨m, anchor⟩ := pr
    have hp : a.parent anchor = some p := hpar (m, anchor) (List.mem_cons_self _ tr)
    obtain ⟨i1, i2, i3, i4⟩ := insert_id_before_spec a anchor m p hp
    obtain ⟨g1, g2, g3, g4⟩ := ih (a.insert_id_before anchor m)
      (fun pr hpr => by rw [i2]; exact hpar pr (List.mem_cons_of_mem _ hpr))
    refine ⟨g1.trans i1, g2.trans i2, fun q hq => (g3 q hq).trans (i3 q hq), ?_⟩
    show ((a.insert_id_before anchor m).applyMoves tr).children p = _
    rw [g4, i4]
    rfl

theorem childPairs_fst (a : Arena T) (p : NodeId) :
    (a.childPairs p).map Prod.fst = a.children p := by
  simp [Arena.childPairs, List.map_map]
  exact List.map_id _

/-- Apply the splice trace of `swap(children p, S)` to a well-formed arena:
only the sibling chain of `p` changes, and it becomes exactly `S`. -/
theorem applyMoves_swapChain (a : Arena T) (p : NodeId) (hwf : a.wf p)
    (S : List NodeId) (hS : S.Perm (a.children p)) :
    (a.applyMoves (swapChain (a.children p) S (a.children p)).2).value = a.value
    ∧ (a.applyMoves (swapChain (a.children p) S (a.children p)).2).parent = a.parent
    ∧ (∀ q, q ≠ p →
        (a.applyMoves (swapChain (a.children p) S (a.children p)).2).children q
          = a.children q)
    ∧ (a.applyMoves (swapChain (a.children p) S (a.children p)).2).children p = S := by
  have hanchors : ∀ pr ∈ (swapChain (a.children p) S (a.children p)).2,
      a.parent pr.2 = some p := by
    intro pr hpr
    have := (swapGo_facts S S 0 none (a.children p) (a.children p)).1 pr hpr
    rcases this with hin | hnone
    · exact hwf.2 pr.2 hin
    · exact absurd hnone (by simp)
  obtain ⟨g1, g2, g3, g4⟩ := applyMoves_spec p
    (swapChain (a.children p) S (a.children p)).2 a hanchors
  refine ⟨g1, g2, g3, ?_⟩
  rw [g4]
  have hfold := (swapGo_facts S S 0 none (a.children p) (a.children p)).2
  show chainApply (a.children p) (swapGo S 0 S none (a.children p) (a.children p)).2 = S
  rw [← hfold]
  exact swapChain_eq (a.children p) S hwf.1 hS

/-- The common correctness/frame lemma for all six sort operations: with a
permutation-producing planner `f`, only `p`'s sibling chain changes, and it
becomes the ids of the sorted snapshot. -/
theorem sortWith_spec (a : Arena T) (p : NodeId) (hwf : a.wf p)
    (f : List (NodeId × T) → List (NodeId × T))
    (hf : (f (a.childPairs p)).Perm (a.childPairs p)) :
    (a.sortWith p f).value = a.value
    ∧ (a.sortWith p f).parent = a.parent
    ∧ (∀ q, q ≠ p → (a.sortWith p f).children q = a.children q)
    ∧ (a.sortWith p f).children p = (f (a.childPairs p)).map Prod.fst := by
  unfold Arena.sortWith Arena.sortWithMoves
  by_cases hc : a.has_children p
  · rw [if_pos hc]
    have hperm : ((f (a.childPairs p)).map Prod.fst).Perm (a.children p) := by
      rw [← childPairs_fst a p]
      exact hf.map Prod.fst
    have h := applyMoves_swapChain a p hwf ((f (a.childPairs p)).map Prod.fst) hperm
    simp only [sort_handler, childPairs_fst a p]
    exact h
  · rw [if_neg hc]
    have hnil : a.children p = [] := by
      by_contra hne
      exact hc (by simpa [Arena.has_children] using hne)
    have hpairs : a.childPairs p = [] := by simp [Arena.childPairs, hnil]
    have hfnil : f (a.childPairs p) = [] := by
      rw [hpairs] at hf ⊢
      exact List.perm_nil.mp hf
    exact ⟨rfl, rfl, fun q _ => rfl, by rw [hfnil]; exact hnil⟩

theorem stableSortBy_perm {α : Type _} (cmp : α → α → Ordering) (l : List α) :
    (stableSortBy cmp l).Perm l :=
  List.mergeSort_perm l _

theorem stableSortByKey_perm {α K : Type _} [LinearOrder K] (f : α → K)
    (l : List α) : (stableSortByKey f l).Perm l :=
  List.mergeSort_perm l _

/-! ### Planner lemmas (stable merge sort facts) -/

theorem cmpLe_iff {α : Type _} [LinearOrder α] (a b : α) :
    (compare a b != Ordering.gt) = true ↔ a ≤ b := by
  rw [← (compare_le_iff_le : compare a b ≠ Ordering.gt ↔ a ≤ b)]
  cases compare a b <;> decide

theorem mergeSort_idem {α : Type _} (le : α → α → Bool)
    (htrans : ∀ a b c, le a b → le b c → le a c)
    (htotal : ∀ a b, le a b || le b a) (l : List α) :
    (l.mergeSort le).mergeSort le = l.mergeSort le :=
  List.mergeSort_of_sorted (List.sorted_mergeSort htrans htotal l)

theorem childPairs_snd (a : Arena T) (p : NodeId) :
    ∀ pr ∈ a.childPairs p, pr.2 = a.value pr.1 := by
  intro pr hpr
  simp only [Arena.childPairs, List.mem_map] at hpr
  obtain ⟨id, _, rfl⟩ := hpr
  rfl

/-- Sorting preserves well-formedness at `p`. -/
theorem sortWith_wf (a : Arena T) (p : NodeId) (hwf : a.wf p)
    (f : List (NodeId × T) → List (NodeId × T))
    (hf : (f (a.childPairs p)).Perm (a.childPairs p)) :
    (a.sortWith p f).wf p := by
  obtain ⟨_, hpar, _, hchil⟩ := sortWith_spec a p hwf f hf
  have hperm : ((a.sortWith p f).children p).Perm (a.children p) := by
    rw [hchil, ← childPairs_fst a p]
    exact hf.map Prod.fst
  constructor
  · exact hperm.symm.nodup hwf.1
  · intro u hu
    rw [hpar]
    exact hwf.2 u (hperm.mem_iff.mp hu)

/-- After one sort, the snapshot the next sort reads is exactly the sorted
pair list of the first. -/
theorem childPairs_after (a : Arena T) (p : NodeId) (hwf : a.wf p)
    (f : List (NodeId × T) → List (NodeId × T))
    (hf : (f (a.childPairs p)).Perm (a.childPairs p)) :
    (a.sortWith p f).childPairs p = f (a.childPairs p) := by
  obtain ⟨hval, _, _, hchil⟩ := sortWith_spec a p hwf f hf
  unfold Arena.childPairs
  rw [hval, hchil, List.map_map]
  have : ∀ pr ∈ f (a.childPairs p),
      ((fun id => (id, a.value id)) ∘ Prod.fst) pr = pr := by
    intro pr hpr
    have h2 := childPairs_snd a p pr (hf.mem_iff.mp hpr)
    show (pr.1, a.value pr.1) = pr
    rw [← h2]
  rw [List.map_congr_left this, List.map_id']
  rfl

/-- Idempotence of the common sort body, given that the planner fixes its own
output (true of stable merge sort under a transitive, total comparison). -/
theorem sortWith_idem (a : Arena T) (p : NodeId) (hwf : a.wf p)
    (f : List (NodeId × T) → List (NodeId × T))
    (hf : ∀ l, (f l).Perm l)
    (hfix : f (f (a.childPairs p)) = f (a.childPairs p)) :
    ((a.sortWith p f).sortWith p f).children p = (a.sortWith p f).children p := by
  have hwf1 : (a.sortWith p f).wf p := sortWith_wf a p hwf f (hf _)
  obtain ⟨_, _, _, hchil1⟩ := sortWith_spec a p hwf f (hf _)
  obtain ⟨_, _, _, hchil2⟩ := sortWith_spec (a.sortWith p f) p hwf1 f (hf _)
  rw [hchil2, childPairs_after a p hwf f (hf _), hfix, hchil1]

/-! ### The already-sorted run: every splice is a physical no-op -/

/-- When the target order coincides with the current chain, the loop leaves
the chain untouched and every splice it performs moves an identifier
immediately before its successor in the chain (a physical no-op). -/
theorem swapGo_self (S : List NodeId) (hS : S.Nodup) :
    ∀ (srest A : List NodeId) (cache : Option NodeId) (rest : List NodeId),
      S = A ++ srest →
      ((cache = none ∧ rest = srest) ∨
        (∃ c srest2, srest = c :: srest2 ∧ cache = some c ∧ rest = srest2)) →
      (swapGo S A.length srest cache rest S).1 = S
      ∧ ∀ pr ∈ (swapGo S A.length srest cache rest S).2,
          ∃ X Y, S = X ++ pr.1 :: pr.2 :: Y := by
  intro srest
  induction srest with
  | nil =>
    intro A cache rest hdecomp hmode
    rcases hmode with ⟨hc, hr⟩ | ⟨c, srest2, habs, _, _⟩
    · subst hc; subst hr
      simp [swapGo]
    · exact absurd habs (by simp)
  | cons id srest ih =>
    intro A cache rest hdecomp hmode
    have hidA : id ∉ A := nodup_middle_not_mem (hdecomp ▸ hS)
    rcases hmode with ⟨hc, hr⟩ | ⟨c, srest2, heq, hc, hr⟩
    · -- no carry: the desired identifier is the head of `rest`
      subst hc; subst hr
      have hplaced : ∀ u, u ∉ A → placedBefore S A.length u = false := by
        intro u hu
        rw [hdecomp, placedBefore_append]
        simp [hu]
      cases srest with
      | nil =>
        simp only [swapGo, swapStep, scan, hplaced id hidA, Bool.false_eq_true,
          if_neg, not_false_eq_true, ne_eq, not_true_eq_false]
        simp [swapGo]
      | cons u' srest'' =>
        have hS' : ((A ++ [id]) ++ u' :: srest'').Nodup := by
          rw [hdecomp] at hS
          simpa using hS
        have hu'A : u' ∉ A ++ [id] := nodup_middle_not_mem hS'
        have hu'A1 : u' ∉ A := fun h => hu'A (List.mem_append_left _ h)
        have hu'id : u' ≠ id := fun h =>
          hu'A (h ▸ List.mem_append_right _ (by simp))
        have hmv : moveBefore S id u' = S := by
          rw [hdecomp]
          exact moveBefore_adjacent A srest'' id u' hidA hu'A1
        have hres := ih (A ++ [id]) (some u') srest''
          (by rw [hdecomp]; simp)
          (Or.inr ⟨u', srest'', rfl, rfl, rfl⟩)
        simp only [List.length_append, List.length_cons, List.length_nil,
          Nat.zero_add, swapGo, swapStep, ne_eq, not_true_eq_false, if_neg,
          Bool.false_eq_true, not_false_eq_true, List.nil_append] at hres
        simp only [swapGo, swapStep, scan, hplaced id hidA, hplaced u' hu'A1,
          Bool.false_eq_true, if_neg, not_false_eq_true, ne_eq,
          not_true_eq_false, if_pos hu'id, hmv, List.cons_append,
          List.nil_append]
        constructor
        · exact hres.1
        · intro pr hpr
          simp only [List.mem_cons] at hpr
          rcases hpr with hhd | htl
          · subst hhd
            exact ⟨A, srest'', hdecomp⟩
          · exact hres.2 pr htl
    · -- carry held: it equals the desired identifier and is cleared
      injection heq with h1 h2
      subst hc
      subst hr
      rw [← h1, ← h2]
      have hres := ih (A ++ [id]) none srest
        (by rw [hdecomp]; simp)
        (Or.inl ⟨rfl, rfl⟩)
      simp only [List.length_append, List.length_cons, List.length_nil,
        Nat.zero_add] at hres
      simp only [swapGo, swapStep, ne_eq, not_true_eq_false, if_neg,
        Bool.false_eq_true, not_false_eq_true]
      constructor
      · exact hres.1
      · intro pr hpr
        simp only [List.nil_append] at hpr
        exact hres.2 pr hpr

/-- Applying a trace of adjacent-pair splices (each moving a node immediately
before its successor) leaves the arena bit-for-bit unchanged. -/
theorem applyMoves_adjacent (p : NodeId) (S : List NodeId) (hS : S.Nodup) :
    ∀ (tr : List (NodeId × NodeId)) (a : Arena T),
      a.children p = S →
      (∀ u ∈ S, a.parent u = some p) →
      (∀ pr ∈ tr, ∃ X Y, S = X ++ pr.1 :: pr.2 :: Y) →
      a.applyMoves tr = a := by
  intro tr
  induction tr with
  | nil => intro a _ _ _; rfl
  | cons pr tr ih =>
    intro a hchil hpar hadj
    obtain ⟨m, anchor⟩ := pr
    obtain ⟨X, Y, hdec⟩ := hadj (m, anchor) (List.mem_cons_self _ tr)
    have hanchor : anchor ∈ S := by
      rw [hdec]
      exact List.mem_append_right X
        (List.mem_cons_of_mem m (List.mem_cons_self anchor Y))
    have hmX : m ∉ X := nodup_middle_not_mem (hdec ▸ hS)
    have haX : anchor ∉ X := by
      have hS' := hdec ▸ hS
      exact fun hmem => (List.nodup_append.mp hS').2.2 hmem
        (List.mem_cons_of_mem m (List.mem_cons_self anchor Y))
    have hmv : moveBefore S m anchor = S := by
      rw [hdec]
      exact moveBefore_adjacent X Y m anchor hmX haX
    have hstep : a.insert_id_before anchor m = a := by
      unfold Arena.insert_id_before
      rw [hpar anchor hanchor]
      refine Arena.ext rfl rfl ?_
      funext q
      by_cases hq : q = p
      · subst hq
        simp [hchil, hmv]
      · simp [hq]
    show (a.insert_id_before anchor m).applyMoves tr = a
    rw [hstep]
    exact ih a hchil hpar (fun pr hpr => hadj pr (List.mem_cons_of_mem _ hpr))

/-- When the planner's target order already equals the current chain, the
whole sort call leaves the arena bit-for-bit unchanged (though it still
performs splice calls). -/
theorem sortWith_already_sorted (a : Arena T) (p : NodeId) (hwf : a.wf p)
    (f : List (NodeId × T) → List (NodeId × T))
    (htarget : (f (a.childPairs p)).map Prod.fst = a.children p) :
    a.sortWith p f = a := by
  unfold Arena.sortWith Arena.sortWithMoves
  by_cases hc : a.has_children p
  · rw [if_pos hc]
    simp only [sort_handler, childPairs_fst a p, htarget]
    have hadj := (swapGo_self (a.children p) hwf.1 (a.children p) [] none
      (a.children p) (by simp) (Or.inl ⟨rfl, rfl⟩)).2
    exact applyMoves_adjacent p (a.children p) hwf.1
      (swapChain (a.children p) (a.children p) (a.children p)).2 a rfl hwf.2
      (by simpa [swapChain] using hadj)
  · rw [if_neg hc]
    rfl

/-! ### Remaining helper lemmas for the claim theorems -/

theorem sortWith_children_perm (a : Arena T) (p : NodeId) (hwf : a.wf p)
    (f : List (NodeId × T) → List (NodeId × T))
    (hf : (f (a.childPairs p)).Perm (a.childPairs p)) :
    ((a.sortWith p f).children p).Perm (a.children p) := by
  rw [(sortWith_spec a p hwf f hf).2.2.2, ← childPairs_fst a p]
  exact hf.map Prod.fst

theorem sortWith_frame (a : Arena T) (p : NodeId) (hwf : a.wf p)
    (f : List (NodeId × T) → List (NodeId × T))
    (hf : (f (a.childPairs p)).Perm (a.childPairs p)) :
    framePreserved a (a.sortWith p f) p := by
  obtain ⟨h1, h2, h3, _⟩ := sortWith_spec a p hwf f hf
  exact ⟨h1, h2, h3, sortWith_children_perm a p hwf f hf⟩

/-- A parent with zero or one children: the sort body performs no splice call
at all and the arena is untouched. -/
theorem sortWith_short (a : Arena T) (p : NodeId)
    (f : List (NodeId × T) → List (NodeId × T))
    (hf : (f (a.childPairs p)).Perm (a.childPairs p))
    (h : a.children p = [] ∨ ∃ u, a.children p = [u]) :
    a.sortWithMoves p f = [] ∧ a.sortWith p f = a := by
  rcases h with hnil | ⟨u, hone⟩
  · have hc : ¬ a.has_children p = true := by simp [Arena.has_children, hnil]
    constructor
    · unfold Arena.sortWithMoves
      rw [if_neg hc]
    · unfold Arena.sortWith Arena.sortWithMoves
      rw [if_neg hc]
      rfl
  · have hpairs : a.childPairs p = [(u, a.value u)] := by
      simp [Arena.childPairs, hone]
    have hfone : f (a.childPairs p) = [(u, a.value u)] := by
      rw [hpairs] at hf ⊢
      exact List.perm_singleton.mp hf
    have hmoves : a.sortWithMoves p f = [] := by
      unfold Arena.sortWithMoves
      rw [if_pos (by simp [Arena.has_children, hone])]
      simp only [sort_handler, childPairs_fst a p, hfone, hone]
      show (swapChain [u] (List.map Prod.fst [(u, a.value u)]) [u]).2 = []
      show (swapGo [u] 0 [u] none [u] [u]).2 = []
      simp [swapGo, swapStep, scan, placedBefore, position]
    constructor
    · exact hmoves
    · unfold Arena.sortWith
      rw [hmoves]
      rfl

/-- The scan splices only the desired identifier, and only before identifiers
that are not already placed. -/
theorem scan_trace_not_placed (S : List NodeId) (i : Nat) (id : NodeId) :
    ∀ (rest chain : List NodeId) (pr : NodeId × NodeId),
      pr ∈ (scan S i id rest chain).trace →
      pr.1 = id ∧ placedBefore S i pr.2 = false := by
  intro rest
  induction rest with
  | nil => intro chain pr hpr; simp [scan] at hpr
  | cons u rest ih =>
    intro chain pr hpr
    simp only [scan] at hpr
    by_cases hp : placedBefore S i u
    · rw [if_pos hp] at hpr
      exact ih chain pr hpr
    · rw [if_neg hp] at hpr
      by_cases hu : u ≠ id
      · rw [if_pos hu] at hpr
        have : pr = (id, u) := by simpa using hpr
        subst this
        exact ⟨rfl, by simpa using hp⟩
      · rw [if_neg hu] at hpr
        exact ih chain pr hpr

theorem bne_gt_iff (o : Ordering) : (o != Ordering.gt) = true ↔ o ≠ Ordering.gt := by
  cases o <;> decide

/-- After `move(s, before c)`, the moved node `s` stands immediately before
`c`. -/
theorem moveBefore_infix (chain : List NodeId) (s c : NodeId)
    (hnd : chain.Nodup) (hc : c ∈ chain) (hne : c ≠ s) :
    [s, c].IsInfix (moveBefore chain s c) := by
  have hc' : c ∈ chain.erase s := (List.mem_erase_of_ne hne).mpr hc
  obtain ⟨l1, l2, hdec⟩ := List.append_of_mem hc'
  have hnd' : (chain.erase s).Nodup := hnd.erase s
  have hcl1 : c ∉ l1 := by
    rw [hdec] at hnd'
    exact fun hmem => (List.nodup_append.mp hnd').2.2 hmem (List.mem_cons_self c l2)
  unfold moveBefore
  rw [hdec, insertBefore_append s c l1 l2 hcl1]
  exact ⟨l1, l2, by simp⟩

/-! ### Claim theorems -/

/-- C1: after `sort()` on a parent whose value type is totally ordered, the
children's values (read front to back) are non-decreasing, and children with
equal values keep their original relative order (the sort is stable). -/
theorem sort_values_nondecreasing_and_stable {T : Type} [LinearOrder T]
    (a : Arena T) (p : NodeId) (hwf : a.wf p) :
    ((a.sort p).children p).Pairwise (fun x y => a.value x ≤ a.value y)
    ∧ (∀ x y : NodeId, a.value x = a.value y →
        [x, y].Sublist (a.children p) →
        [x, y].Sublist ((a.sort p).children p)) := by
  have htrans : ∀ x y z : NodeId × T,
      (compare x.2 y.2 != Ordering.gt) = true →
      (compare y.2 z.2 != Ordering.gt) = true →
      (compare x.2 z.2 != Ordering.gt) = true := by
    intro x y z hxy hyz
    rw [cmpLe_iff] at hxy hyz ⊢
    exact hxy.trans hyz
  have htotal : ∀ x y : NodeId × T,
      ((compare x.2 y.2 != Ordering.gt) || (compare y.2 x.2 != Ordering.gt)) = true := by
    intro x y
    rw [Bool.or_eq_true]
    rcases le_total x.2 y.2 with h | h
    · exact Or.inl ((cmpLe_iff _ _).mpr h)
    · exact Or.inr ((cmpLe_iff _ _).mpr h)
  have hchil : (a.sort p).children p
      = ((a.childPairs p).mergeSort
          (fun x y => compare x.2 y.2 != Ordering.gt)).map Prod.fst :=
    (sortWith_spec a p hwf (stableSortBy (fun x y => compare x.2 y.2))
      (stableSortBy_perm _ _)).2.2.2
  constructor
  · rw [hchil, List.pairwise_map]
    have hsor := List.sorted_mergeSort htrans htotal (a.childPairs p)
    refine List.Pairwise.imp_of_mem ?_ hsor
    intro pr pr' hpr hpr' hle
    have h2 := childPairs_snd a p pr ((List.mergeSort_perm _ _).mem_iff.mp hpr)
    have h2' := childPairs_snd a p pr' ((List.mergeSort_perm _ _).mem_iff.mp hpr')
    rw [← h2, ← h2']
    exact (cmpLe_iff _ _).mp hle
  · intro x y hval hsub
    rw [hchil]
    have hsubp : [(x, a.value x), (y, a.value y)].Sublist (a.childPairs p) := by
      have := hsub.map (fun id => (id, a.value id))
      simpa [Arena.childPairs] using this
    have hab : (compare (x, a.value x).2 (y, a.value y).2 != Ordering.gt) = true := by
      show (compare (a.value x) (a.value y) != Ordering.gt) = true
      rw [cmpLe_iff, hval]
    have hms := List.pair_sublist_mergeSort htrans htotal hab hsubp
    have hmap := hms.map Prod.fst
    simpa using hmap

theorem sort_values_nondecreasing_and_stable_witness :
    demoArena.wf 0
    ∧ (((demoArena.sort 0).children 0).Pairwise
        (fun x y => demoArena.value x ≤ demoArena.value y)
      ∧ (∀ x y : NodeId, demoArena.value x = demoArena.value y →
          [x, y].Sublist (demoArena.children 0) →
          [x, y].Sublist ((demoArena.sort 0).children 0))) :=
  ⟨⟨by decide, by decide⟩,
    sort_values_nondecreasing_and_stable demoArena 0 ⟨by decide, by decide⟩⟩

/-- C2: `swap(unsorted, sorted)`, called with `unsorted` listing the parent's
current children in order and `sorted` a permutation of them, rewrites the
sibling chain so that iterating the children front to back yields exactly
`sorted`. -/
theorem swap_realizes_target {T : Type} (a : Arena T) (p : NodeId)
    (hwf : a.wf p) (unsorted sorted : List NodeId)
    (hu : unsorted = a.children p) (hs : sorted.Perm unsorted) :
    (a.swap p unsorted sorted).children p = sorted := by
  subst hu
  exact (applyMoves_swapChain a p hwf sorted hs).2.2.2

theorem swap_realizes_target_witness :
    demoArena.wf 0
    ∧ (demoArena.swap 0 [1, 2, 3] [3, 1, 2]).children 0 = [3, 1, 2] :=
  ⟨⟨by decide, by decide⟩,
    swap_realizes_target demoArena 0 ⟨by decide, by decide⟩ [1, 2, 3] [3, 1, 2]
      (by decide) (by decide)⟩

/-- C3: every sort operation leaves the multiset of the parent's children
identifiers unchanged, and the snapshot step `sort_handler` returns two
equal-length identifier sequences over that same multiset. -/
theorem sort_ops_preserve_id_multiset {T : Type} [LinearOrder T]
    (a : Arena T) (p : NodeId) (hwf : a.wf p) :
    (∀ f : List (NodeId × T) → List (NodeId × T),
      (f (a.childPairs p)).Perm (a.childPairs p) →
      (sort_handler f (a.childPairs p)).1.length
          = (sort_handler f (a.childPairs p)).2.length
      ∧ (sort_handler f (a.childPairs p)).2.Perm
          (sort_handler f (a.childPairs p)).1)
    ∧ ((a.sort p).children p).Perm (a.children p)
    ∧ (∀ cmp : T → T → Ordering,
        ((a.sort_by p cmp).children p).Perm (a.children p))
    ∧ (∀ (K : Type) [LinearOrder K] (k : T → K),
        ((a.sort_by_key p k).children p).Perm (a.children p))
    ∧ ((a.sort_id p).children p).Perm (a.children p)
    ∧ (∀ cmp : Nat → Nat → Ordering,
        ((a.sort_by_id p cmp).children p).Perm (a.children p))
    ∧ (∀ (K : Type) [LinearOrder K] (k : Nat → T → K),
        ((a.sort_by_id_key p k).children p).Perm (a.children p)) := by
  refine ⟨?_, ?_, ?_, ?_, ?_, ?_, ?_⟩
  · intro f hf
    constructor
    · show (List.map Prod.fst (a.childPairs p)).length
          = (List.map Prod.fst (f (a.childPairs p))).length
      rw [List.length_map, List.length_map, hf.length_eq]
    · exact (hf.map Prod.fst)
  · exact sortWith_children_perm a p hwf _ (stableSortBy_perm _ _)
  · intro cmp
    exact sortWith_children_perm a p hwf _ (stableSortBy_perm _ _)
  · intro K _ k
    exact sortWith_children_perm a p hwf _ (stableSortByKey_perm _ _)
  · exact sortWith_children_perm a p hwf _ (stableSortBy_perm _ _)
  · intro cmp
    exact sortWith_children_perm a p hwf _ (stableSortBy_perm _ _)
  · intro K _ k
    exact sortWith_children_perm a p hwf _ (stableSortByKey_perm _ _)

theorem sort_ops_preserve_id_multiset_witness :
    demoArena.wf 0
    ∧ ((demoArena.sort 0).children 0).Perm (demoArena.children 0) :=
  ⟨⟨by decide, by decide⟩,
    (sort_ops_preserve_id_multiset demoArena 0 ⟨by decide, by decide⟩).2.1⟩

/-- C8: after any sort operation, every identifier resolves to a node with the
same value, the same parent link, and the same own child list (hence the same
subtree); only the sorted parent's sibling chain changes, and only by a
permutation. -/
theorem sort_ops_frame {T : Type} [LinearOrder T]
    (a : Arena T) (p : NodeId) (hwf : a.wf p) :
    framePreserved a (a.sort p) p
    ∧ (∀ cmp : T → T → Ordering, framePreserved a (a.sort_by p cmp) p)
    ∧ (∀ (K : Type) [LinearOrder K] (k : T → K),
        framePreserved a (a.sort_by_key p k) p)
    ∧ framePreserved a (a.sort_id p) p
    ∧ (∀ cmp : Nat → Nat → Ordering, framePreserved a (a.sort_by_id p cmp) p)
    ∧ (∀ (K : Type) [LinearOrder K] (k : Nat → T → K),
        framePreserved a (a.sort_by_id_key p k) p) := by
  refine ⟨?_, ?_, ?_, ?_, ?_, ?_⟩
  · exact sortWith_frame a p hwf _ (stableSortBy_perm _ _)
  · intro cmp
    exact sortWith_frame a p hwf _ (stableSortBy_perm _ _)
  · intro K _ k
    exact sortWith_frame a p hwf _ (stableSortByKey_perm _ _)
  · exact sortWith_frame a p hwf _ (stableSortBy_perm _ _)
  · intro cmp
    exact sortWith_frame a p hwf _ (stableSortBy_perm _ _)
  · intro K _ k
    exact sortWith_frame a p hwf _ (stableSortByKey_perm _ _)

theorem sort_ops_frame_witness :
    demoArena.wf 0 ∧ framePreserved demoArena (demoArena.sort 0) 0 :=
  ⟨⟨by decide, by decide⟩,
    (sort_ops_frame demoArena 0 ⟨by decide, by decide⟩).1⟩

/-- C9: on a parent with zero or one children every sort operation performs
zero splice calls and leaves the arena completely unchanged. -/
theorem sort_ops_noop_small {T : Type} [LinearOrder T]
    (a : Arena T) (p : NodeId)
    (h : a.children p = [] ∨ ∃ u, a.children p = [u]) :
    (a.sortWithMoves p (stableSortBy (fun x y : NodeId × T => compare x.2 y.2)) = []
      ∧ a.sort p = a)
    ∧ (∀ cmp : T → T → Ordering,
        a.sortWithMoves p (stableSortBy (fun x y : NodeId × T => cmp x.2 y.2)) = []
        ∧ a.sort_by p cmp = a)
    ∧ (∀ (K : Type) [LinearOrder K] (k : T → K),
        a.sortWithMoves p (stableSortByKey (fun pr : NodeId × T => k pr.2)) = []
        ∧ a.sort_by_key p k = a)
    ∧ (a.sortWithMoves p
        (stableSortBy (fun x y : NodeId × T => compare x.1.to_index y.1.to_index)) = []
      ∧ a.sort_id p = a)
    ∧ (∀ cmp : Nat → Nat → Ordering,
        a.sortWithMoves p
          (stableSortBy (fun x y : NodeId × T => cmp x.1.to_index y.1.to_index)) = []
        ∧ a.sort_by_id p cmp = a)
    ∧ (∀ (K : Type) [LinearOrder K] (k : Nat → T → K),
        a.sortWithMoves p
          (stableSortByKey (fun pr : NodeId × T => k pr.1.to_index pr.2)) = []
        ∧ a.sort_by_id_key p k = a) := by
  refine ⟨?_, ?_, ?_, ?_, ?_, ?_⟩
  · exact sortWith_short a p _ (stableSortBy_perm _ _) h
  · intro cmp
    exact sortWith_short a p _ (stableSortBy_perm _ _) h
  · intro K _ k
    exact sortWith_short a p _ (stableSortByKey_perm _ _) h
  · exact sortWith_short a p _ (stableSortBy_perm _ _) h
  · intro cmp
    exact sortWith_short a p _ (stableSortBy_perm _ _) h
  · intro K _ k
    exact sortWith_short a p _ (stableSortByKey_perm _ _) h

theorem sort_ops_noop_small_witness :
    (demoArena.children 5 = [] ∨ ∃ u, demoArena.children 5 = [u])
    ∧ (demoArena.sortWithMoves 5
        (stableSortBy (fun x y : NodeId × Nat => compare x.2 y.2)) = []
      ∧ demoArena.sort 5 = demoArena) :=
  ⟨Or.inl (by decide),
    (sort_ops_noop_small demoArena 5 (Or.inl (by decide))).1⟩

/-- C6: if the parent's children were created in ascending `NodeId` order
(creation order `L`), then after any prior reordering — i.e. from any
permutation of `L` — `sort_id()` restores exactly the creation order. -/
theorem sort_id_restores_creation_order {T : Type} (a : Arena T) (p : NodeId)
    (hwf : a.wf p) (L : List NodeId) (hL : L.Pairwise (fun x y => x < y))
    (hcur : (a.children p).Perm L) :
    (a.sort_id p).children p = L := by
  have htrans : ∀ x y z : NodeId × T,
      (compare x.1.to_index y.1.to_index != Ordering.gt) = true →
      (compare y.1.to_index z.1.to_index != Ordering.gt) = true →
      (compare x.1.to_index z.1.to_index != Ordering.gt) = true := by
    intro x y z hxy hyz
    rw [cmpLe_iff] at hxy hyz ⊢
    exact hxy.trans hyz
  have htotal : ∀ x y : NodeId × T,
      ((compare x.1.to_index y.1.to_index != Ordering.gt)
        || (compare y.1.to_index x.1.to_index != Ordering.gt)) = true := by
    intro x y
    rw [Bool.or_eq_true]
    rcases le_total x.1.to_index y.1.to_index with h | h
    · exact Or.inl ((cmpLe_iff _ _).mpr h)
    · exact Or.inr ((cmpLe_iff _ _).mpr h)
  have hchil : (a.sort_id p).children p
      = ((a.childPairs p).mergeSort
          (fun x y => compare x.1.to_index y.1.to_index != Ordering.gt)).map Prod.fst :=
    (sortWith_spec a p hwf
      (stableSortBy (fun x y => compare x.1.to_index y.1.to_index))
      (stableSortBy_perm _ _)).2.2.2
  have hsorted : ((a.sort_id p).children p).Pairwise (fun x y : NodeId => x ≤ y) := by
    rw [hchil, List.pairwise_map]
    have hsor := List.sorted_mergeSort htrans htotal (a.childPairs p)
    refine List.Pairwise.imp_of_mem ?_ hsor
    intro pr pr' _ _ hle
    exact (cmpLe_iff _ _).mp hle
  have hperm : ((a.sort_id p).children p).Perm L :=
    (sortWith_children_perm a p hwf _ (stableSortBy_perm _ _)).trans hcur
  exact List.eq_of_perm_of_sorted hperm hsorted
    (hL.imp (fun h => le_of_lt h))

theorem sort_id_restores_creation_order_witness :
    demoArena.wf 0
    ∧ List.Pairwise (fun x y : NodeId => x < y) [1, 2, 3]
    ∧ (demoArena.children 0).Perm [1, 2, 3]
    ∧ (demoArena.sort_id 0).children 0 = [1, 2, 3] :=
  ⟨⟨by decide, by decide⟩, by decide, by decide,
    sort_id_restores_creation_order demoArena 0 ⟨by decide, by decide⟩
      [1, 2, 3] (by decide) (by decide)⟩

/-- C7: each sort operation is idempotent on the resulting child order;
for the comparator-based variants this holds under the spec's standing
assumption (§9) that the comparator is a strict weak order (here:
transitivity and antisymmetry of the induced non-`gt` relation). -/
theorem sort_ops_idempotent {T : Type} [LinearOrder T]
    (a : Arena T) (p : NodeId) (hwf : a.wf p) :
    (((a.sort p).sort p).children p = (a.sort p).children p)
    ∧ (∀ cmp : T → T → Ordering,
        (∀ x y z : T, cmp x y ≠ Ordering.gt → cmp y z ≠ Ordering.gt →
          cmp x z ≠ Ordering.gt) →
        (∀ x y : T, cmp x y = Ordering.gt → cmp y x ≠ Ordering.gt) →
        ((a.sort_by p cmp).sort_by p cmp).children p
          = (a.sort_by p cmp).children p)
    ∧ (∀ (K : Type) [LinearOrder K] (k : T → K),
        ((a.sort_by_key p k).sort_by_key p k).children p
          = (a.sort_by_key p k).children p)
    ∧ (((a.sort_id p).sort_id p).children p = (a.sort_id p).children p)
    ∧ (∀ cmp : Nat → Nat → Ordering,
        (∀ x y z : Nat, cmp x y ≠ Ordering.gt → cmp y z ≠ Ordering.gt →
          cmp x z ≠ Ordering.gt) →
        (∀ x y : Nat, cmp x y = Ordering.gt → cmp y x ≠ Ordering.gt) →
        ((a.sort_by_id p cmp).sort_by_id p cmp).children p
          = (a.sort_by_id p cmp).children p)
    ∧ (∀ (K : Type) [LinearOrder K] (k : Nat → T → K),
        ((a.sort_by_id_key p k).sort_by_id_key p k).children p
          = (a.sort_by_id_key p k).children p) := by
  refine ⟨?_, ?_, ?_, ?_, ?_, ?_⟩
  · refine sortWith_idem a p hwf _ (fun l => stableSortBy_perm _ l) ?_
    refine mergeSort_idem _ ?_ ?_ (a.childPairs p)
    · intro x y z hxy hyz
      rw [cmpLe_iff] at hxy hyz ⊢
      exact hxy.trans hyz
    · intro x y
      rw [Bool.or_eq_true]
      rcases le_total x.2 y.2 with h | h
      · exact Or.inl ((cmpLe_iff _ _).mpr h)
      · exact Or.inr ((cmpLe_iff _ _).mpr h)
  · intro cmp hT hA
    refine sortWith_idem a p hwf _ (fun l => stableSortBy_perm _ l) ?_
    refine mergeSort_idem _ ?_ ?_ (a.childPairs p)
    · intro x y z hxy hyz
      rw [bne_gt_iff] at hxy hyz ⊢
      exact hT _ _ _ hxy hyz
    · intro x y
      rw [Bool.or_eq_true, bne_gt_iff, bne_gt_iff]
      by_cases h : cmp x.2 y.2 = Ordering.gt
      · exact Or.inr (hA _ _ h)
      · exact Or.inl h
  · intro K _ k
    refine sortWith_idem a p hwf _ (fun l => stableSortByKey_perm _ l) ?_
    refine mergeSort_idem _ ?_ ?_ (a.childPairs p)
    · intro x y z hxy hyz
      rw [decide_eq_true_eq] at hxy hyz ⊢
      exact hxy.trans hyz
    · intro x y
      rw [Bool.or_eq_true, decide_eq_true_eq, decide_eq_true_eq]
      exact le_total _ _
  · refine sortWith_idem a p hwf _ (fun l => stableSortBy_perm _ l) ?_
    refine mergeSort_idem _ ?_ ?_ (a.childPairs p)
    · intro x y z hxy hyz
      rw [cmpLe_iff] at hxy hyz ⊢
      exact hxy.trans hyz
    · intro x y
      rw [Bool.or_eq_true]
      rcases le_total x.1.to_index y.1.to_index with h | h
      · exact Or.inl ((cmpLe_iff _ _).mpr h)
      · exact Or.inr ((cmpLe_iff _ _).mpr h)
  · intro cmp hT hA
    refine sortWith_idem a p hwf _ (fun l => stableSortBy_perm _ l) ?_
    refine mergeSort_idem _ ?_ ?_ (a.childPairs p)
    · intro x y z hxy hyz
      rw [bne_gt_iff] at hxy hyz ⊢
      exact hT _ _ _ hxy hyz
    · intro x y
      rw [Bool.or_eq_true, bne_gt_iff, bne_gt_iff]
      by_cases h : cmp x.1.to_index y.1.to_index = Ordering.gt
      · exact Or.inr (hA _ _ h)
      · exact Or.inl h
  · intro K _ k
    refine sortWith_idem a p hwf _ (fun l => stableSortByKey_perm _ l) ?_
    refine mergeSort_idem _ ?_ ?_ (a.childPairs p)
    · intro x y z hxy hyz
      rw [decide_eq_true_eq] at hxy hyz ⊢
      exact hxy.trans hyz
    · intro x y
      rw [Bool.or_eq_true, decide_eq_true_eq, decide_eq_true_eq]
      exact le_total _ _

theorem sort_ops_idempotent_witness :
    demoArena.wf 0
    ∧ ((demoArena.sort 0).sort 0).children 0 = (demoArena.sort 0).children 0 :=
  ⟨⟨by decide, by decide⟩,
    (sort_ops_idempotent demoArena 0 ⟨by decide, by decide⟩).1⟩

/-- C4 (counterexample): at target position 1 of the run
`swap([1,2,3], [3,2,1])` the carry holds 1 and the desired identifier is 2;
the step splices node 2 before the carried node 1 (trace entry `(2, 1)`), so
the carried node does **not** end up immediately before the desired
identifier — the chain becomes `[3, 2, 1]`, where 1 follows 2. -/
theorem carry_step_cex :
    swapStep [3, 2, 1] 1 2 (some 1) [2, 3] [3, 1, 2]
      = ⟨some 1, [2, 3], [3, 2, 1], [(2, 1)]⟩
    ∧ ¬ [1, 2].IsInfix (swapStep [3, 2, 1] 1 2 (some 1) [2, 3] [3, 1, 2]).chain := by
  decide

/-- C4 (amended): at target position `i` with desired identifier `s`, if the
carry holds `c ≠ s` the applier performs `move(s, before: c)` — the desired
node `s` is placed immediately before the carried node — and the carry is not
cleared; if the carry holds exactly `s`, the carry is cleared and no move is
performed. -/
theorem carry_step_amended (S : List NodeId) (i : Nat) (s c : NodeId)
    (rest chain : List NodeId) (hnd : chain.Nodup) (hc : c ∈ chain)
    (hne : c ≠ s) :
    (swapStep S i s (some c) rest chain
        = ⟨some c, rest, moveBefore chain s c, [(s, c)]⟩
      ∧ [s, c].IsInfix (moveBefore chain s c))
    ∧ swapStep S i s (some s) rest chain = ⟨none, rest, chain, []⟩ := by
  refine ⟨⟨?_, moveBefore_infix chain s c hnd hc hne⟩, ?_⟩
  · simp [swapStep, hne]
  · simp [swapStep]

theorem carry_step_amended_witness :
    ([3, 1, 2] : List NodeId).Nodup ∧ (1 : NodeId) ∈ [3, 1, 2]
    ∧ (1 : NodeId) ≠ 2
    ∧ ((swapStep [3, 2, 1] 1 2 (some 1) [2, 3] [3, 1, 2]
          = ⟨some 1, [2, 3], moveBefore [3, 1, 2] 2 1, [(2, 1)]⟩
        ∧ [2, 1].IsInfix (moveBefore [3, 1, 2] 2 1))
      ∧ swapStep [3, 2, 1] 1 2 (some 2) [2, 3] [3, 1, 2]
          = ⟨none, [2, 3], [3, 1, 2], []⟩) :=
  ⟨by decide, by decide, by decide,
    carry_step_amended [3, 2, 1] 1 2 1 [2, 3] [3, 1, 2]
      (by decide) (by decide) (by decide)⟩

/-- C5 (counterexample): with target `[1,2]` and unconsumed suffix `[1,2]` at
position 0, the first non-skipped identifier equals the desired identifier 1,
yet the scan does not stop there: it keeps consuming, performs a splice
(trace `[(1, 2)]`) and sets the carry to 2.  And with target `[2,1]`, desired
2, first non-skipped 1 ≠ 2: the splice recorded is `(2, 1)` — node 2 moved
before node 1 — not `move(1, before 2)`; indeed 1 is not immediately before 2
in the resulting chain `[2, 1]`. -/
theorem scan_first_match_cex :
    (scan [1, 2] 0 1 [1, 2] [1, 2]).cache = some 2
    ∧ (scan [1, 2] 0 1 [1, 2] [1, 2]).trace = [(1, 2)]
    ∧ (scan [2, 1] 0 2 [1, 2] [1, 2]).trace = [(2, 1)]
    ∧ ¬ [1, 2].IsInfix (scan [2, 1] 0 2 [1, 2] [1, 2]).chain := by
  decide

/-- C5 (amended): with no carry held, the scan skips (consuming, without any
splice) identifiers already placed before position `i`; at the first
remaining identifier `u ≠ s` it performs `move(s, before: u)` and sets the
carry to `u`; at `u = s` it does not stop but keeps scanning past `s`; and
every splice the scan performs moves `s`, anchored at a not-yet-placed
identifier — a skipped, already-placed identifier is never spliced. -/
theorem scan_step_amended (S : List NodeId) (i : Nat) (s u : NodeId)
    (rest chain : List NodeId) :
    (placedBefore S i u = true →
      scan S i s (u :: rest) chain = scan S i s rest chain)
    ∧ (placedBefore S i u = false → u ≠ s →
        scan S i s (u :: rest) chain
          = ⟨some u, rest, moveBefore chain s u, [(s, u)]⟩)
    ∧ (placedBefore S i s = false →
        scan S i s (s :: rest) chain = scan S i s rest chain)
    ∧ (∀ pr ∈ (scan S i s rest chain).trace,
        pr.1 = s ∧ placedBefore S i pr.2 = false) := by
  refine ⟨?_, ?_, ?_,
    fun pr hpr => scan_trace_not_placed S i s rest chain pr hpr⟩
  · intro hp
    simp [scan, hp]
  · intro hp hu
    simp [scan, hp, hu]
  · intro hp
    simp [scan, hp]

theorem scan_step_amended_witness :
    placedBefore [2, 1] 0 1 = false ∧ (1 : NodeId) ≠ 2
    ∧ scan [2, 1] 0 2 (1 :: [2]) [1, 2]
        = ⟨some 1, [2], moveBefore [1, 2] 2 1, [(2, 1)]⟩ :=
  ⟨by decide, by decide,
    (scan_step_amended [2, 1] 0 2 1 [2] [1, 2]).2.1 (by decide) (by decide)⟩

/-- C10 (counterexample): with the target order equal to the current chain
`[1, 2]`, `swap` still performs a splice call (`(1, 2)`: node 1 is spliced
before node 2, a physical no-op), and a full sort call on an already-sorted
two-child arena likewise records a non-empty splice trace. -/
theorem already_sorted_splices_cex :
    (swapChain [1, 2] [1, 2] [1, 2]).2 = [(1, 2)]
    ∧ demoSorted.sortWithMoves 0
        (stableSortBy (fun x y : NodeId × Nat => compare x.2 y.2)) ≠ [] := by
  have hms : stableSortBy (fun x y : NodeId × Nat => compare x.2 y.2)
      (demoSorted.childPairs 0) = demoSorted.childPairs 0 :=
    List.mergeSort_of_sorted (by decide)
  constructor
  · decide
  · unfold Arena.sortWithMoves
    rw [if_pos (by decide)]
    simp only [sort_handler, hms, childPairs_fst]
    decide

/-- C10 (amended): when the planner's target order already equals the current
child order, the sort call leaves the tree state bit-for-bit unchanged —
every splice it performs is a physical no-op — although splice calls are in
general still performed. -/
theorem already_sorted_tree_unchanged {T : Type} (a : Arena T) (p : NodeId)
    (hwf : a.wf p) (f : List (NodeId × T) → List (NodeId × T))
    (htarget : (f (a.childPairs p)).map Prod.fst = a.children p) :
    a.sortWith p f = a :=
  sortWith_already_sorted a p hwf f htarget

theorem already_sorted_tree_unchanged_witness :
    demoSorted.wf 0
    ∧ ((stableSortBy (fun x y : NodeId × Nat => compare x.2 y.2)
        (demoSorted.childPairs 0)).map Prod.fst = demoSorted.children 0)
    ∧ demoSorted.sortWith 0
        (stableSortBy (fun x y : NodeId × Nat => compare x.2 y.2)) = demoSorted :=
  ⟨⟨by decide, by decide⟩,
    by rw [show stableSortBy (fun x y : NodeId × Nat => compare x.2 y.2)
          (demoSorted.childPairs 0) = demoSorted.childPairs 0 from
        List.mergeSort_of_sorted (by decide)]; decide,
    already_sorted_tree_unchanged demoSorted 0 ⟨by decide, by decide⟩ _
      (by rw [show stableSortBy (fun x y : NodeId × Nat => compare x.2 y.2)
            (demoSorted.childPairs 0) = demoSorted.childPairs 0 from
          List.mergeSort_of_sorted (by decide)]; decide)⟩

end EgoTree
